import Mathlib

/-!
# Negative Keyword Conflict Finder — verification development

Shallow embedding of the negative-keyword conflict detection logic of this
repository, which exists in two variants:

* the MCC (multi-account) script (`negativeBlocksPositive`, `normalizeKeyword`,
  `hasAllTokens`, `isSubsequence`, `findConflicts`, `checkLevelForConflicts`,
  `buildDataCache`, the fetch row loops) — embedded with suffix `_mcc`;
* the single-account script with the same function names — embedded with
  suffix `_single`.

JavaScript strings are modelled as `List Char`; the scripts only ever apply
ASCII-level operations (`toUpperCase`/`toLowerCase` on ASCII keyword data,
`trim`, `split(' ')`, `join`, `indexOf`, `replace`), each of which is embedded
by an explicit executable function below.  `null` results are modelled with
`Option`.
-/

/-- Convert a Lean string literal to the `List Char` representation used for
JavaScript strings throughout this development. -/
def chars (s : String) : List Char := s.data

/-- JavaScript whitespace class `\s` (ASCII part): space, tab, line feed,
vertical tab, form feed, carriage return. -/
def isWs (c : Char) : Bool :=
  c = ' ' || c = '\t' || c = '\n' || c = '\r' || c = '\x0b' || c = '\x0c'

/-- JavaScript `String.prototype.trim()`: drop leading and trailing
whitespace. -/
def jsTrim (s : List Char) : List Char :=
  ((s.dropWhile isWs).reverse.dropWhile isWs).reverse

/-- JavaScript ASCII `toLowerCase` on a single character: the scripts'
keyword data is ASCII, where JS agrees with `Char.toLower`. -/
def lowerChar (c : Char) : Char := c.toLower

/-- JavaScript ASCII `toUpperCase` on a single character. -/
def upperChar (c : Char) : Char := c.toUpper

/-- `toLowerCase` of a whole string. -/
def lowerStr (s : List Char) : List Char := s.map lowerChar

/-- `toUpperCase` of a whole string. -/
def upperStr (s : List Char) : List Char := s.map upperChar

/-- Does `p` occur at the start of `s`?  (JS `startsWith`.) -/
def beginsWith : List Char → List Char → Bool
  | [], _ => true
  | _ :: _, [] => false
  | p :: ps, c :: cs => p = c && beginsWith ps cs

/-- Does `p` occur at the end of `s`?  (JS `endsWith`.) -/
def finishesWith (p s : List Char) : Bool :=
  beginsWith p.reverse s.reverse

/-- JS `s.indexOf(pat) !== -1`: does `pat` occur contiguously in `s`? -/
def containsSeq (pat : List Char) : List Char → Bool
  | [] => pat.isEmpty
  | c :: rest => beginsWith pat (c :: rest) || containsSeq pat rest

/-- JS `String.prototype.substring(a, b)`: clamps both arguments to the
string length and swaps them when `a > b`. -/
def jsSubstring (s : List Char) (a b : Nat) : List Char :=
  let a' := min a s.length
  let b' := min b s.length
  (s.take (max a' b')).drop (min a' b')

/-- JS `s.replace(pat, '')` for a plain-string pattern: removes the first
occurrence of `pat` (used for `matchType.toUpperCase().replace('_MATCH', '')`). -/
def removeFirst (pat : List Char) : List Char → List Char
  | [] => []
  | c :: rest =>
    if beginsWith pat (c :: rest) then (c :: rest).drop pat.length
    else c :: removeFirst pat rest

/-- JS `s.replace(/\s+/g, ' ')`: every maximal whitespace run becomes one
space.  `inRun` records whether the previous character was whitespace. -/
def wsCollapseAux : List Char → Bool → List Char
  | [], _ => []
  | c :: rest, inRun =>
    if isWs c then
      if inRun then wsCollapseAux rest true else ' ' :: wsCollapseAux rest true
    else c :: wsCollapseAux rest false

/-- `s.replace(/\s+/g, ' ')`. -/
def wsCollapse (s : List Char) : List Char := wsCollapseAux s false

/-- JS `s.split(' ')`: split on single-space separators; consecutive spaces
yield empty fields, and the empty string yields one empty field. -/
def splitSp : List Char → List (List Char)
  | [] => [[]]
  | c :: rest =>
    if c = ' ' then [] :: splitSp rest
    else
      match splitSp rest with
      | [] => [[c]]
      | w :: ws => (c :: w) :: ws

/-- JS `arr.join(' ')`: empty for no fields, the field itself for one, and
fields separated by single spaces otherwise. -/
def joinSp : List (List Char) → List Char
  | [] => []
  | [w] => w
  | w :: ws => w ++ ' ' :: joinSp ws

/-- The whitespace-delimited tokens of a string: single-space fields with
empty fields removed (what the spec calls the token set of a keyword). -/
def jsTokens (s : List Char) : List (List Char) :=
  (splitSp s).filter (fun t => !t.isEmpty)

/-- `trimKeyword(text, open, close)` (identical in both scripts): if `text`
starts with `opn` and ends with `clo`, return
`text.substring(opn.length, text.length - clo.length).trim()`, else `text`. -/
def trimKeyword (text opn clo : List Char) : List Char :=
  if beginsWith opn text && finishesWith clo text then
    jsTrim (jsSubstring text opn.length (text.length - clo.length))
  else text

/-- MCC-variant broad-match-modifier removal, per word:
`word.startsWith('+') ? word.substring(1) : word`. -/
def stripPlusWord : List Char → List Char
  | '+' :: t => t
  | other => other

/-- MCC-variant broad-match-modifier removal (whole string): split on single
spaces, strip a leading `+` from each word, re-join. -/
def stripPlusWords (s : List Char) : List Char :=
  joinSp ((splitSp s).map stripPlusWord)

/-- Single-account-variant broad-match-modifier removal:
`raw.replace(/\+(\S+)/g, '$1')` — each `'+'` that is immediately followed by a
non-space character is deleted together with nothing else (the following
maximal `\S+` run is kept), and scanning resumes after that run. -/
def stripPlusRegexAux : Nat → List Char → List Char
  | 0, s => s
  | _ + 1, [] => []
  | _ + 1, ['+'] => ['+']
  | fuel + 1, '+' :: c :: rest =>
    if isWs c then '+' :: stripPlusRegexAux fuel (c :: rest)
    else
      (c :: rest.takeWhile (fun x => !isWs x)) ++
        stripPlusRegexAux fuel (rest.dropWhile (fun x => !isWs x))
  | fuel + 1, c :: rest => c :: stripPlusRegexAux fuel rest

/-- `raw.replace(/\+(\S+)/g, '$1')`.  The fuel argument only bounds the
recursion; every step consumes at least one input character and the
exhausted-fuel case is only reachable at the empty remainder, where it
returns the remainder unchanged. -/
def stripPlusRegex (s : List Char) : List Char :=
  stripPlusRegexAux s.length s

/-- The canonical unit of comparison built by `normalizeKeyword` in both
scripts: `{ display, raw, matchType }`. -/
structure NormalizedKeyword where
  display : List Char
  raw : List Char
  matchType : List Char
  deriving DecidableEq, Repr

/-- Match-type canonicalization, identical in both scripts:
`matchType.toUpperCase().replace('_MATCH', '')`, then default to `BROAD`
when the result is not one of `EXACT`, `PHRASE`, `BROAD`. -/
def normMatchType (matchType : List Char) : List Char :=
  let m := removeFirst (chars "_MATCH") (upperStr matchType)
  if m = chars "EXACT" || m = chars "PHRASE" || m = chars "BROAD" then m
  else chars "BROAD"

/-- The cleaned `raw` text as computed by the MCC script's
`normalizeKeyword`: trim; strip `"…"` wrappers when the *original* match type
(uppercased) contains `PHRASE`, else `[…]` wrappers when it contains `EXACT`;
strip a leading `+` from each space-delimited word; collapse `\s+` to single
spaces and trim; lowercase. -/
def cleanedRaw_mcc (text matchType : List Char) : List Char :=
  let raw0 := jsTrim text
  let raw1 :=
    if containsSeq (chars "PHRASE") (upperStr matchType) then
      trimKeyword raw0 (chars "\"") (chars "\"")
    else if containsSeq (chars "EXACT") (upperStr matchType) then
      trimKeyword raw0 (chars "[") (chars "]")
    else raw0
  lowerStr (jsTrim (wsCollapse (stripPlusWords raw1)))

/-- The cleaned `raw` text as computed by the single-account script's
`normalizeKeyword`: identical pipeline except the wrapper stripping is
selected by the *normalized* match type (after `_MATCH` removal and the
BROAD default) and the `+` removal uses the regex `\+(\S+)`. -/
def cleanedRaw_single (text matchType : List Char) : List Char :=
  let raw0 := jsTrim text
  let nmt := normMatchType matchType
  let raw1 :=
    if nmt = chars "PHRASE" then trimKeyword raw0 (chars "\"") (chars "\"")
    else if nmt = chars "EXACT" then trimKeyword raw0 (chars "[") (chars "]")
    else raw0
  lowerStr (jsTrim (wsCollapse (stripPlusRegex raw1)))

/-- `display` construction (identical in both scripts): re-wrap the cleaned
text according to the normalized match type. -/
def wrapDisplay (raw nmt : List Char) : List Char :=
  if nmt = chars "PHRASE" then '"' :: raw ++ ['"']
  else if nmt = chars "EXACT" then '[' :: raw ++ [']']
  else raw

/-- `normalizeKeyword(text, matchType)` of the MCC script.  `none` models the
JS `null` return.  (`!text` for a JS string is emptiness; the `typeof`
checks are vacuous in this typed model.) -/
def normalizeKeyword_mcc (text matchType : List Char) : Option NormalizedKeyword :=
  if text.isEmpty || (jsTrim text).isEmpty then none
  else if matchType.isEmpty then none
  else
    let nmt := normMatchType matchType
    let raw := cleanedRaw_mcc text matchType
    if raw.isEmpty then none
    else some ⟨wrapDisplay raw nmt, raw, nmt⟩

/-- `normalizeKeyword(text, matchType)` of the single-account script.  The
script builds `display` before its final empty-`raw` check; the returned
value is the same either way, and the embedding mirrors the check order. -/
def normalizeKeyword_single (text matchType : List Char) : Option NormalizedKeyword :=
  if text.isEmpty || (jsTrim text).isEmpty then none
  else if matchType.isEmpty then none
  else
    let nmt := normMatchType matchType
    let raw := cleanedRaw_single text matchType
    let display := wrapDisplay raw nmt
    if raw.isEmpty then none
    else some ⟨display, raw, nmt⟩

/-- `hasAllTokens` of the MCC script: empty needle is vacuously true, empty
haystack (with non-empty needle) is false; otherwise the needle's non-empty
space-split tokens must all be members of the haystack's non-empty
space-split token set. -/
def hasAllTokens_mcc (k1 k2 : List Char) : Bool :=
  if k1.isEmpty then true
  else if k2.isEmpty then false
  else
    let tokens1 := (splitSp k1).filter (fun t => !t.isEmpty)
    if tokens1.isEmpty then true
    else tokens1.all (fun t => ((splitSp k2).filter (fun t => !t.isEmpty)).contains t)

/-- `hasAllTokens` of the single-account script: false on an empty needle or
haystack; no filtering of empty tokens. -/
def hasAllTokens_single (k1 k2 : List Char) : Bool :=
  if k1.isEmpty || k2.isEmpty then false
  else (splitSp k1).all (fun t => (splitSp k2).contains t)

/-- `isSubsequence` of the MCC script: empty needle true, empty haystack
false, else space-padded substring containment. -/
def isSubsequence_mcc (k1 k2 : List Char) : Bool :=
  if k1.isEmpty then true
  else if k2.isEmpty then false
  else containsSeq (' ' :: k1 ++ [' ']) (' ' :: k2 ++ [' '])

/-- `isSubsequence` of the single-account script: false when either string is
empty, else space-padded substring containment. -/
def isSubsequence_single (k1 k2 : List Char) : Bool :=
  if k1.isEmpty || k2.isEmpty then false
  else containsSeq (' ' :: k1 ++ [' ']) (' ' :: k2 ++ [' '])

/-- `negativeBlocksPositive` of the MCC script.  (Its leading
`typeof … !== 'string'` guard is vacuous in this typed model.) -/
def negativeBlocksPositive_mcc (n p : NormalizedKeyword) : Bool :=
  if n.matchType = chars "EXACT" then p.raw = n.raw
  else if n.matchType = chars "PHRASE" then
    if p.matchType = chars "EXACT" then p.raw = n.raw
    else isSubsequence_mcc n.raw p.raw
  else if n.matchType = chars "BROAD" then hasAllTokens_mcc n.raw p.raw
  else false

/-- `negativeBlocksPositive` of the single-account script. -/
def negativeBlocksPositive_single (n p : NormalizedKeyword) : Bool :=
  if n.matchType = chars "EXACT" then p.raw = n.raw
  else if n.matchType = chars "PHRASE" then
    if p.matchType = chars "EXACT" then p.raw = n.raw
    else isSubsequence_single n.raw p.raw
  else if n.matchType = chars "BROAD" then hasAllTokens_single n.raw p.raw
  else false

/-- A keyword raw text in the shape `normalizeKeyword` guarantees for the
space structure: non-empty, and splitting on single spaces yields no empty
fields (no leading/trailing space, no doubled spaces). -/
def spaceNormal (s : List Char) : Bool :=
  !s.isEmpty && (splitSp s).all (fun t => !t.isEmpty)

/-! ## Index data model and conflict analyzer (MCC script) -/

/-- One ad group entry of the index: `{ name, positives, negatives }`
(keyed by its id in the JS cache object). -/
structure AdGroup where
  id : List Char
  name : List Char
  positives : List NormalizedKeyword
  negatives : List NormalizedKeyword
  deriving DecidableEq, Repr

/-- A `{ listId, listName }` association stored in a campaign's
`sharedListNegatives`. -/
structure SharedListRef where
  listId : List Char
  listName : List Char
  deriving DecidableEq, Repr

/-- One campaign entry of the index. -/
structure Campaign where
  id : List Char
  name : List Char
  adGroups : List AdGroup
  negatives : List NormalizedKeyword
  sharedListNegatives : List SharedListRef
  deriving DecidableEq, Repr

/-- One shared negative-keyword list entry of the index. -/
structure SharedList where
  id : List Char
  name : List Char
  negatives : List NormalizedKeyword
  deriving DecidableEq, Repr

/-- The per-account data cache of the MCC script.  JS objects keyed by id are
modelled as lists in iteration order. -/
structure Cache where
  campaigns : List Campaign
  sharedLists : List SharedList
  accountNegatives : List NormalizedKeyword
  deriving DecidableEq, Repr

/-- A row of the analyzer's output:
`[negative.display, locationString, blockedPositivesDisplay.join(', ')]`. -/
structure ConflictRecord where
  negDisplay : List Char
  location : List Char
  blocked : List Char
  deriving DecidableEq, Repr

/-- `blockedPositivesDisplay.join(', ')`. -/
def joinCommaSp (l : List (List Char)) : List Char :=
  List.intercalate (chars ", ") l

/-- `checkLevelForConflicts` (identical in both scripts): for each negative,
collect in encounter order the display texts of the positives it blocks; if
any, emit one row for this negative and location. -/
def checkLevelForConflicts (negatives positives : List NormalizedKeyword)
    (loc : List Char) : List ConflictRecord :=
  negatives.filterMap (fun n =>
    let blocked := (positives.filter (fun p => negativeBlocksPositive_mcc n p)).map
      (fun p => p.display)
    if blocked.isEmpty then none
    else some ⟨n.display, loc, joinCommaSp blocked⟩)

/-- `cache.sharedLists[listId]` lookup. -/
def lookupSharedList (ls : List SharedList) (listId : List Char) : Option SharedList :=
  ls.find? (fun l => decide (l.id = listId))

/-- The body of the MCC `findConflicts` loop for one ad group: skip when it
has no positives, otherwise check its positives against the four negative
sources (ad group, campaign, each shared list associated with the campaign,
account level) with the location strings the script builds. -/
def processAdGroup (cache : Cache) (c : Campaign) (g : AdGroup) : List ConflictRecord :=
  if g.positives.isEmpty then []
  else
    let adGroupLoc := chars "Ad Group: " ++ g.name ++ chars " (Campaign: " ++ c.name ++ chars ")"
    let campaignLoc := chars "Campaign: " ++ c.name
    checkLevelForConflicts g.negatives g.positives adGroupLoc ++
    checkLevelForConflicts c.negatives g.positives campaignLoc ++
    (c.sharedListNegatives.map (fun ref =>
      let listName := if ref.listName.isEmpty then chars "List ID " ++ ref.listId else ref.listName
      let loc := chars "Shared List: " ++ listName ++ chars " (Applied to Campaign: " ++ c.name ++ chars ")"
      match lookupSharedList cache.sharedLists ref.listId with
      | some l => checkLevelForConflicts l.negatives g.positives loc
      | none => [])).flatten ++
    checkLevelForConflicts cache.accountNegatives g.positives (chars "Account Level")

/-- `findConflicts` of the MCC script: iterate campaigns, then ad groups,
appending each ad group's conflict rows. -/
def findConflicts_mcc (cache : Cache) : List ConflictRecord :=
  (cache.campaigns.map (fun c => (c.adGroups.map (processAdGroup cache c)).flatten)).flatten

/-! ## Index building -/

/-- The empty cache both scripts start from. -/
def emptyCache : Cache := ⟨[], [], []⟩

/-- `buildDataCache` of the MCC script: one `try` block runs the four fetches
in sequence (`fetchKeywords`, `fetchCampaignNegatives`,
`fetchSharedNegativeLists`, `fetchAccountNegatives`); the single `catch`
returns `null`.  Each fetch is modelled as a cache transformer that may throw
(the underlying report calls are external I/O). -/
def buildDataCache_mcc
    (fetchKw fetchCampNeg fetchShared fetchAcctNeg : Cache → Except (List Char) Cache) :
    Option Cache :=
  match fetchKw emptyCache with
  | .error _ => none
  | .ok c1 =>
    match fetchCampNeg c1 with
    | .error _ => none
    | .ok c2 =>
      match fetchShared c2 with
      | .error _ => none
      | .ok c3 =>
        match fetchAcctNeg c3 with
        | .error _ => none
        | .ok c4 => some c4

/-- `buildDataCache` of the single-account script: same single `try`/`catch`
around its three fetches. -/
def buildDataCache_single
    (fetchKw fetchCampNeg fetchShared : Cache → Except (List Char) Cache) :
    Option Cache :=
  match fetchKw emptyCache with
  | .error _ => none
  | .ok c1 =>
    match fetchCampNeg c1 with
    | .error _ => none
    | .ok c2 =>
      match fetchShared c2 with
      | .error _ => none
      | .ok c3 => some c3

/-! ## Keyword-fetch row processing -/

/-- One row of the `keyword_view` report, after the camelCase field reads.
`negative` is `some b` for an explicit boolean and `none` for a missing or
non-boolean value; empty strings model missing text fields (JS falsiness). -/
structure KeywordRow where
  campaignId : List Char
  campaignName : List Char
  adGroupId : List Char
  adGroupName : List Char
  text : List Char
  matchType : List Char
  negative : Option Bool
  deriving DecidableEq, Repr

/-- Find the campaign keyed `cid`, apply `f`; create it first (empty, with
name `cname`) when absent — the lazy init both scripts perform. -/
def upsertCampaign (cs : List Campaign) (cid cname : List Char)
    (f : Campaign → Campaign) : List Campaign :=
  match cs with
  | [] => [f ⟨cid, cname, [], [], []⟩]
  | c :: rest =>
    if c.id = cid then f c :: rest else c :: upsertCampaign rest cid cname f

/-- Find the ad group keyed `gid` inside a campaign's `adGroups`, apply `f`;
create it first (empty) when absent. -/
def upsertAdGroup (gs : List AdGroup) (gid gname : List Char)
    (f : AdGroup → AdGroup) : List AdGroup :=
  match gs with
  | [] => [f ⟨gid, gname, [], []⟩]
  | g :: rest =>
    if g.id = gid then f g :: rest else g :: upsertAdGroup rest gid gname f

/-- One iteration of the MCC `fetchKeywords` row loop: skip the row when an
essential field is missing; lazily create the campaign/ad-group entries; then
normalize, and — only when normalization succeeds — route the keyword into
the ad group's negatives (`negative === true`) or positives (`=== false`, or
any other value after a warning).  A failed normalization leaves the lists
untouched (`continue`). -/
def processKeywordRow_mcc (cache : Cache) (row : KeywordRow) : Cache :=
  if row.campaignId.isEmpty || row.adGroupId.isEmpty ||
      row.text.isEmpty || row.matchType.isEmpty then cache
  else
    let route : AdGroup → AdGroup :=
      match normalizeKeyword_mcc row.text row.matchType with
      | none => fun g => g
      | some nk => fun g =>
        match row.negative with
        | some true => { g with negatives := g.negatives ++ [nk] }
        | some false => { g with positives := g.positives ++ [nk] }
        | _ => { g with positives := g.positives ++ [nk] }
    { cache with
        campaigns := upsertCampaign cache.campaigns row.campaignId row.campaignName
          (fun c => { c with
            adGroups := upsertAdGroup c.adGroups row.adGroupId row.adGroupName route }) }

/-- The MCC `fetchKeywords` row loop over a whole report. -/
def fetchKeywordsRows_mcc (cache : Cache) (rows : List KeywordRow) : Cache :=
  rows.foldl processKeywordRow_mcc cache

/-- Ad group entry as built by the single-account script: its keyword lists
hold the *unchecked* results of `normalizeKeyword`, so a JS `null` (here
`none`) can be stored. -/
structure AdGroupS where
  id : List Char
  name : List Char
  positives : List (Option NormalizedKeyword)
  negatives : List (Option NormalizedKeyword)
  deriving DecidableEq, Repr

/-- Campaign entry of the single-account `cache.campaigns` map (only the
fields `fetchKeywords` touches are carried; its `negatives` list likewise
receives unchecked `normalizeKeyword` results). -/
structure CampaignS where
  id : List Char
  name : List Char
  adGroups : List AdGroupS
  negatives : List (Option NormalizedKeyword)
  deriving DecidableEq, Repr

/-- `upsertCampaign` for the single-account cache shape. -/
def upsertCampaignS (cs : List CampaignS) (cid cname : List Char)
    (f : CampaignS → CampaignS) : List CampaignS :=
  match cs with
  | [] => [f ⟨cid, cname, [], []⟩]
  | c :: rest =>
    if c.id = cid then f c :: rest else c :: upsertCampaignS rest cid cname f

/-- `upsertAdGroup` for the single-account cache shape. -/
def upsertAdGroupS (gs : List AdGroupS) (gid gname : List Char)
    (f : AdGroupS → AdGroupS) : List AdGroupS :=
  match gs with
  | [] => [f ⟨gid, gname, [], []⟩]
  | g :: rest =>
    if g.id = gid then f g :: rest else g :: upsertAdGroupS rest gid gname f

/-- One iteration of the single-account `fetchKeywords` row loop: same
structure as the MCC one, except the result of `normalizeKeyword` is pushed
*without* a null check — `cache.campaigns[…].adGroups[…].negatives.push(normalizedKeyword)`
(resp. `positives.push`) runs even when `normalizedKeyword` is `null`. -/
def processKeywordRow_single (campaigns : List CampaignS) (row : KeywordRow) :
    List CampaignS :=
  if row.campaignId.isEmpty || row.adGroupId.isEmpty ||
      row.text.isEmpty || row.matchType.isEmpty then campaigns
  else
    let nk := normalizeKeyword_single row.text row.matchType
    let route : AdGroupS → AdGroupS := fun g =>
      match row.negative with
      | some true => { g with negatives := g.negatives ++ [nk] }
      | some false => { g with positives := g.positives ++ [nk] }
      | _ => { g with positives := g.positives ++ [nk] }
    upsertCampaignS campaigns row.campaignId row.campaignName
      (fun c => { c with
        adGroups := upsertAdGroupS c.adGroups row.adGroupId row.adGroupName route })

/-! ## General lemmas about the string primitives -/

/-- `split(' ')` never returns an empty field list. -/
theorem splitSp_ne_nil (s : List Char) : splitSp s ≠ [] := by
  match s with
  | [] => simp [splitSp]
  | c :: rest =>
    rw [splitSp]
    split
    · simp
    · split
      · simp
      · simp

/-- For a `spaceNormal` string the single-space fields are exactly the
whitespace-delimited tokens (no empty fields to remove). -/
theorem jsTokens_of_spaceNormal (s : List Char) (h : spaceNormal s = true) :
    jsTokens s = splitSp s := by
  have h2 := (Bool.and_eq_true _ _).mp h
  exact List.filter_eq_self.mpr (List.all_eq_true.mp h2.2)

/-- A `spaceNormal` string is non-empty. -/
theorem spaceNormal_ne_nil (s : List Char) (h : spaceNormal s = true) : s ≠ [] := by
  have h2 := (Bool.and_eq_true _ _).mp h
  simpa using h2.1

/-! ## C1 -/

/-- C1: for every pair of normalized keywords with `negative.matchType =
EXACT`, `blocks(negative, positive)` is true iff the raw texts are equal as
strings, in both script variants, and the positive's match type has no
effect on the result. -/
theorem c1_exact_negative_blocks_iff_raw_equal (n p : NormalizedKeyword)
    (h : n.matchType = chars "EXACT") :
    ((negativeBlocksPositive_mcc n p = true) ↔ p.raw = n.raw) ∧
    ((negativeBlocksPositive_single n p = true) ↔ p.raw = n.raw) ∧
    (∀ mt, negativeBlocksPositive_mcc n ⟨p.display, p.raw, mt⟩ =
      negativeBlocksPositive_mcc n p) ∧
    (∀ mt, negativeBlocksPositive_single n ⟨p.display, p.raw, mt⟩ =
      negativeBlocksPositive_single n p) := by
  simp [negativeBlocksPositive_mcc, negativeBlocksPositive_single, h]

/-- Witness for C1 at a concrete pair: exact negative `[shoes]` against
broad positive `shoes`. -/
theorem c1_witness :
    negativeBlocksPositive_mcc ⟨chars "[shoes]", chars "shoes", chars "EXACT"⟩
      ⟨chars "shoes", chars "shoes", chars "BROAD"⟩ = true :=
  (c1_exact_negative_blocks_iff_raw_equal
    ⟨chars "[shoes]", chars "shoes", chars "EXACT"⟩
    ⟨chars "shoes", chars "shoes", chars "BROAD"⟩ (by decide)).1.mpr (by decide)

/-! ## C2 -/

/-- C2: for every pair of normalized keywords (hence with non-empty raw
texts) with `negative.matchType = PHRASE`: against an EXACT positive,
`blocks` iff the raw texts are equal; against any other positive (PHRASE or
BROAD), `blocks` iff the space-padded negative raw occurs as a contiguous
substring of the space-padded positive raw.  Both script variants. -/
theorem c2_phrase_negative_blocking (n p : NormalizedKeyword)
    (h : n.matchType = chars "PHRASE") (hn : n.raw ≠ []) (hp : p.raw ≠ []) :
    (p.matchType = chars "EXACT" →
      (((negativeBlocksPositive_mcc n p = true) ↔ p.raw = n.raw) ∧
       ((negativeBlocksPositive_single n p = true) ↔ p.raw = n.raw))) ∧
    (p.matchType ≠ chars "EXACT" →
      (((negativeBlocksPositive_mcc n p = true) ↔
          containsSeq (' ' :: (n.raw ++ [' '])) (' ' :: (p.raw ++ [' '])) = true) ∧
       ((negativeBlocksPositive_single n p = true) ↔
          containsSeq (' ' :: (n.raw ++ [' '])) (' ' :: (p.raw ++ [' '])) = true))) := by
  have e1 : chars "PHRASE" ≠ chars "EXACT" := by decide
  constructor
  · intro hpe
    simp [negativeBlocksPositive_mcc, negativeBlocksPositive_single, h, hpe, e1]
  · intro hpe
    simp [negativeBlocksPositive_mcc, negativeBlocksPositive_single, h, hpe, e1,
      isSubsequence_mcc, isSubsequence_single, hn, hp]

/-- Witness for C2 at a concrete pair: phrase negative `"running shoes"`
against broad positive `buy running shoes online`. -/
theorem c2_witness :
    negativeBlocksPositive_mcc
      ⟨chars "\"running shoes\"", chars "running shoes", chars "PHRASE"⟩
      ⟨chars "buy running shoes online", chars "buy running shoes online", chars "BROAD"⟩ =
      true :=
  ((c2_phrase_negative_blocking
      ⟨chars "\"running shoes\"", chars "running shoes", chars "PHRASE"⟩
      ⟨chars "buy running shoes online", chars "buy running shoes online", chars "BROAD"⟩
      (by decide) (by decide) (by decide)).2 (by decide)).1.mpr (by decide)

/-! ## C3 -/

/-- `contains` on token lists is list membership. -/
theorem contains_list_iff (l : List (List Char)) (a : List Char) :
    l.contains a = true ↔ a ∈ l := by
  simp [List.contains_iff_exists_mem_beq]

/-- Characterization of the MCC `hasAllTokens` on a non-empty haystack:
token-set inclusion over the whitespace-delimited tokens. -/
theorem hasAllTokens_mcc_iff (k1 k2 : List Char) (hk2 : k2 ≠ []) :
    hasAllTokens_mcc k1 k2 = true ↔ ∀ t ∈ jsTokens k1, t ∈ jsTokens k2 := by
  unfold hasAllTokens_mcc
  by_cases h1 : k1 = []
  · subst h1
    simp [jsTokens, splitSp]
  · rw [if_neg (by simpa using h1), if_neg (by simpa using hk2)]
    by_cases htk : (splitSp k1).filter (fun t => !t.isEmpty) = []
    · rw [if_pos (by simpa using htk)]
      have : jsTokens k1 = [] := htk
      simp [this]
    · rw [if_neg (by simpa using htk)]
      rw [List.all_eq_true]
      constructor
      · intro hall t ht
        exact (contains_list_iff _ _).mp (hall t ht)
      · intro hall t ht
        exact (contains_list_iff _ _).mpr (hall t ht)

/-- Characterization of the single-account `hasAllTokens` on space-normal
inputs: the same token-set inclusion. -/
theorem hasAllTokens_single_iff (k1 k2 : List Char)
    (h1 : spaceNormal k1 = true) (h2 : spaceNormal k2 = true) :
    hasAllTokens_single k1 k2 = true ↔ ∀ t ∈ jsTokens k1, t ∈ jsTokens k2 := by
  unfold hasAllTokens_single
  rw [if_neg (by simp [spaceNormal_ne_nil _ h1, spaceNormal_ne_nil _ h2])]
  rw [jsTokens_of_spaceNormal _ h1, jsTokens_of_spaceNormal _ h2, List.all_eq_true]
  constructor
  · intro hall t ht
    exact (contains_list_iff _ _).mp (hall t ht)
  · intro hall t ht
    exact (contains_list_iff _ _).mpr (hall t ht)

/-- C3: for every pair of normalized keywords (space-normal raw texts) with
`negative.matchType = BROAD`, `blocks` is true iff every whitespace-delimited
token of the negative raw is among the whitespace-delimited tokens of the
positive raw (any order, any position; vacuously true when the negative has
no tokens).  Both script variants. -/
theorem c3_broad_negative_blocking (n p : NormalizedKeyword)
    (h : n.matchType = chars "BROAD")
    (hn : spaceNormal n.raw = true) (hp : spaceNormal p.raw = true) :
    ((negativeBlocksPositive_mcc n p = true) ↔
      ∀ t ∈ jsTokens n.raw, t ∈ jsTokens p.raw) ∧
    ((negativeBlocksPositive_single n p = true) ↔
      ∀ t ∈ jsTokens n.raw, t ∈ jsTokens p.raw) := by
  have hb1 : negativeBlocksPositive_mcc n p = hasAllTokens_mcc n.raw p.raw := by
    unfold negativeBlocksPositive_mcc
    rw [h, if_neg (by decide), if_neg (by decide), if_pos rfl]
  have hb2 : negativeBlocksPositive_single n p = hasAllTokens_single n.raw p.raw := by
    unfold negativeBlocksPositive_single
    rw [h, if_neg (by decide), if_neg (by decide), if_pos rfl]
  rw [hb1, hb2]
  exact ⟨hasAllTokens_mcc_iff _ _ (spaceNormal_ne_nil _ hp),
    hasAllTokens_single_iff _ _ hn hp⟩

/-- Witness for C3 at a concrete pair: broad negative `red shoes` against
broad positive `shoes red cheap`. -/
theorem c3_witness :
    negativeBlocksPositive_mcc
      ⟨chars "red shoes", chars "red shoes", chars "BROAD"⟩
      ⟨chars "shoes red cheap", chars "shoes red cheap", chars "BROAD"⟩ = true :=
  (c3_broad_negative_blocking
    ⟨chars "red shoes", chars "red shoes", chars "BROAD"⟩
    ⟨chars "shoes red cheap", chars "shoes red cheap", chars "BROAD"⟩
    (by decide) (by decide) (by decide)).1.mpr (by decide)

/-! ## C7 -/

/-- The "parseable" match types: those whose canonicalization
(`toUpperCase`, strip `_MATCH`) lands in `{EXACT, PHRASE, BROAD}` without
the BROAD fallback. -/
def recognizedMatchType (matchType : List Char) : Bool :=
  let m := removeFirst (chars "_MATCH") (upperStr matchType)
  m = chars "EXACT" || m = chars "PHRASE" || m = chars "BROAD"

/-- Counterexample to C7 as stated: an unparseable (but present) match type
does not make `normalizeKeyword` return null — `normalizeKeyword('shoes',
'ZZZ')` falls back to BROAD and succeeds in both variants, so "`Invalid` iff
empty text ∨ missing-or-unparseable match type ∨ empty cleaned text" fails. -/
theorem c7_counterexample :
    ¬ (∀ text matchType : List Char,
        (normalizeKeyword_mcc text matchType = none ↔
          jsTrim text = [] ∨ matchType = [] ∨ recognizedMatchType matchType = false ∨
            cleanedRaw_mcc text matchType = []) ∧
        (normalizeKeyword_single text matchType = none ↔
          jsTrim text = [] ∨ matchType = [] ∨ recognizedMatchType matchType = false ∨
            cleanedRaw_single text matchType = [])) := by
  intro hclaim
  have h := ((hclaim (chars "shoes") (chars "ZZZ")).1).mpr
    (Or.inr (Or.inr (Or.inl (by decide))))
  revert h
  decide

/-- C7 amended: `normalizeKeyword` returns null iff the text is empty or
whitespace-only, or the match type is missing (empty), or the cleaned text is
empty after stripping; an unrecognized match type alone never causes failure
(it is coerced to BROAD).  Both variants. -/
theorem c7_normalize_failure_characterization (text matchType : List Char) :
    (normalizeKeyword_mcc text matchType = none ↔
      jsTrim text = [] ∨ matchType = [] ∨ cleanedRaw_mcc text matchType = []) ∧
    (normalizeKeyword_single text matchType = none ↔
      jsTrim text = [] ∨ matchType = [] ∨ cleanedRaw_single text matchType = []) := by
  constructor
  · by_cases hA : jsTrim text = []
    · simp [normalizeKeyword_mcc, hA]
    · have hA1 : text ≠ [] := fun hh => hA (by simp [hh, jsTrim])
      by_cases hB : matchType = []
      · simp [normalizeKeyword_mcc, hA, hA1, hB]
      · by_cases hC : cleanedRaw_mcc text matchType = [] <;>
          simp [normalizeKeyword_mcc, hA, hA1, hB, hC]
  · by_cases hA : jsTrim text = []
    · simp [normalizeKeyword_single, hA]
    · have hA1 : text ≠ [] := fun hh => hA (by simp [hh, jsTrim])
      by_cases hB : matchType = []
      · simp [normalizeKeyword_single, hA, hA1, hB]
      · by_cases hC : cleanedRaw_single text matchType = [] <;>
          simp [normalizeKeyword_single, hA, hA1, hB, hC]

/-! ## C6 -/

/-- Counterexample to C6 as stated: even when the ad-group-keyword fetch
succeeds, an exception in a later fetch (here the campaign-negative fetch)
makes `buildDataCache` return null — the failure is not degraded to "no
additional data". -/
theorem c6_counterexample :
    ¬ (∀ fetchKw fetchCampNeg fetchShared fetchAcctNeg :
          Cache → Except (List Char) Cache,
        (∃ c1, fetchKw emptyCache = .ok c1) →
          (buildDataCache_mcc fetchKw fetchCampNeg fetchShared fetchAcctNeg).isSome =
            true) := by
  intro hclaim
  have h := hclaim (fun c => .ok c) (fun _ => .error (chars "exception"))
    (fun c => .ok c) (fun c => .ok c) ⟨emptyCache, rfl⟩
  simp [buildDataCache_mcc] at h

/-- C6 amended: `buildDataCache` returns null iff any of the four sequential
fetches throws — an exception in *any* fetch (not only the ad-group-keyword
one) aborts the whole index build, and the account is skipped; only when all
four succeed is the assembled cache returned. -/
theorem c6_buildDataCache_none_iff_some_fetch_throws
    (f1 f2 f3 f4 : Cache → Except (List Char) Cache) :
    ((∃ e, f1 emptyCache = .error e) → buildDataCache_mcc f1 f2 f3 f4 = none) ∧
    (∀ c1, f1 emptyCache = .ok c1 → (∃ e, f2 c1 = .error e) →
      buildDataCache_mcc f1 f2 f3 f4 = none) ∧
    (∀ c1 c2, f1 emptyCache = .ok c1 → f2 c1 = .ok c2 → (∃ e, f3 c2 = .error e) →
      buildDataCache_mcc f1 f2 f3 f4 = none) ∧
    (∀ c1 c2 c3, f1 emptyCache = .ok c1 → f2 c1 = .ok c2 → f3 c2 = .ok c3 →
      (∃ e, f4 c3 = .error e) → buildDataCache_mcc f1 f2 f3 f4 = none) ∧
    (∀ c1 c2 c3 c4, f1 emptyCache = .ok c1 → f2 c1 = .ok c2 → f3 c2 = .ok c3 →
      f4 c3 = .ok c4 → buildDataCache_mcc f1 f2 f3 f4 = some c4) := by
  refine ⟨?_, ?_, ?_, ?_, ?_⟩
  · rintro ⟨e, he⟩
    simp [buildDataCache_mcc, he]
  · rintro c1 h1 ⟨e, he⟩
    simp [buildDataCache_mcc, h1, he]
  · rintro c1 c2 h1 h2 ⟨e, he⟩
    simp [buildDataCache_mcc, h1, h2, he]
  · rintro c1 c2 c3 h1 h2 h3 ⟨e, he⟩
    simp [buildDataCache_mcc, h1, h2, h3, he]
  · rintro c1 c2 c3 c4 h1 h2 h3 h4
    simp [buildDataCache_mcc, h1, h2, h3, h4]

/-- Witness for C6 at concrete fetches: all four fetches succeed and the
built cache is returned. -/
theorem c6_witness :
    buildDataCache_mcc (fun c => .ok c) (fun c => .ok c) (fun c => .ok c)
      (fun c => .ok c) = some emptyCache :=
  (c6_buildDataCache_none_iff_some_fetch_throws
      (fun c => .ok c) (fun c => .ok c) (fun c => .ok c) (fun c => .ok c)).2.2.2.2
    emptyCache emptyCache emptyCache emptyCache rfl rfl rfl rfl

/-! ## C9 -/

/-- C9: an ad group whose positives list is empty contributes no
ConflictRecord — the analyzer skips it before evaluating any of the four
negative sources (`findConflicts_mcc` flattens `processAdGroup` over all ad
groups, and `processAdGroup` returns `[]` immediately). -/
theorem c9_empty_positives_ad_group_contributes_nothing
    (cache : Cache) (c : Campaign) (g : AdGroup) (h : g.positives = []) :
    processAdGroup cache c g = [] := by
  unfold processAdGroup
  rw [if_pos (by simpa using h)]

/-- Witness for C9 at a concrete cache: an ad group with negatives but no
positives yields no records. -/
theorem c9_witness :
    processAdGroup
      ⟨[], [], [⟨chars "shoes", chars "shoes", chars "BROAD"⟩]⟩
      ⟨chars "1", chars "camp", [], [⟨chars "x", chars "x", chars "BROAD"⟩], []⟩
      ⟨chars "2", chars "grp", [], [⟨chars "y", chars "y", chars "EXACT"⟩]⟩ = [] :=
  c9_empty_positives_ad_group_contributes_nothing _ _ _ rfl

/-! ## C8 -/

/-- C8 (code bug in the single-account script): a keyword row whose text
normalizes to null (here text `""`, i.e. a phrase wrapper around nothing) is
*not* excluded from the single-account index — `fetchKeywords` pushes the
null into the ad group's positives list, so the stored entry has no
`rawText` at all.  The MCC script's `fetchKeywords` checks the normalization
result and skips the same row, leaving the lists empty. -/
theorem c8_single_account_stores_invalid_keyword :
    normalizeKeyword_single (chars "\"\"") (chars "PHRASE") = none ∧
    processKeywordRow_single []
      ⟨chars "1", chars "Camp", chars "10", chars "AG",
        chars "\"\"", chars "PHRASE", some false⟩ =
      [⟨chars "1", chars "Camp", [⟨chars "10", chars "AG", [none], []⟩], []⟩] ∧
    processKeywordRow_mcc emptyCache
      ⟨chars "1", chars "Camp", chars "10", chars "AG",
        chars "\"\"", chars "PHRASE", some false⟩ =
      ⟨[⟨chars "1", chars "Camp", [⟨chars "10", chars "AG", [], []⟩], [], []⟩],
        [], []⟩ := by
  refine ⟨by decide, by decide, by decide⟩

/-! ## C4 -/

/-- Counterexample to C4 as stated: one campaign-level negative checked
against two ad groups of the same campaign produces two ConflictRecords with
the identical (negative display, location) pair, because the campaign-level
location string does not mention the ad group.  So "at most one
ConflictRecord per (negative, location) combination per analyzer run" fails. -/
theorem c4_counterexample :
    ¬ (∀ (cache : Cache) (d loc : List Char),
        ((findConflicts_mcc cache).filter
          (fun r => decide (r.negDisplay = d) && decide (r.location = loc))).length ≤ 1) := by
  intro hclaim
  have h := hclaim
    ⟨[⟨chars "1", chars "c",
        [⟨chars "10", chars "g1",
          [⟨chars "shoes a", chars "shoes a", chars "BROAD"⟩], []⟩,
         ⟨chars "11", chars "g2",
          [⟨chars "shoes b", chars "shoes b", chars "BROAD"⟩], []⟩],
        [⟨chars "shoes", chars "shoes", chars "BROAD"⟩], []⟩], [], []⟩
    (chars "shoes") (chars "Campaign: c")
  revert h
  decide

/-- Membership characterization of a level check: a record is in the output
iff some negative of the list blocks at least one positive, and the record is
exactly that negative's display, the location, and the comma-joined display
texts of the blocked positives in encounter order. -/
theorem checkLevel_mem (negs pos : List NormalizedKeyword) (loc : List Char)
    (r : ConflictRecord) :
    r ∈ checkLevelForConflicts negs pos loc ↔
      ∃ n ∈ negs, pos.filter (fun p => negativeBlocksPositive_mcc n p) ≠ [] ∧
        r = ⟨n.display, loc,
          joinCommaSp ((pos.filter (fun p => negativeBlocksPositive_mcc n p)).map
            (fun p => p.display))⟩ := by
  unfold checkLevelForConflicts
  rw [List.mem_filterMap]
  constructor
  · rintro ⟨n, hn, hf⟩
    simp only at hf
    by_cases hb : pos.filter (fun p => negativeBlocksPositive_mcc n p) = []
    · rw [if_pos (by simp [hb])] at hf
      exact absurd hf (by simp)
    · rw [if_neg (by simp [hb])] at hf
      exact ⟨n, hn, hb, (Option.some_inj.mp hf).symm⟩
  · rintro ⟨n, hn, hne, rfl⟩
    refine ⟨n, hn, ?_⟩
    simp only
    rw [if_neg (by simp [hne])]

/-- The negative display texts of a level check's output form a sublist of
the negatives' display texts. -/
theorem checkLevel_displays_sublist (negs pos : List NormalizedKeyword)
    (loc : List Char) :
    ((checkLevelForConflicts negs pos loc).map (fun r => r.negDisplay)).Sublist
      (negs.map (fun n => n.display)) := by
  induction negs with
  | nil => simp [checkLevelForConflicts]
  | cons n negs ih =>
    unfold checkLevelForConflicts at ih ⊢
    rw [List.filterMap_cons]
    by_cases hb : pos.filter (fun p => negativeBlocksPositive_mcc n p) = []
    · simp only [if_pos (by simp [hb] :
        (((pos.filter (fun p => negativeBlocksPositive_mcc n p)).map
          (fun p => p.display)).isEmpty) = true)]
      exact ih.cons _
    · simp only [if_neg (by simp [hb] :
        ¬ ((((pos.filter (fun p => negativeBlocksPositive_mcc n p)).map
          (fun p => p.display)).isEmpty) = true))]
      rw [List.map_cons]
      exact ih.cons₂ _

/-- In a duplicate-free list, at most one entry equals any given value. -/
theorem nodup_filter_eq_length_le_one {α : Type} [DecidableEq α] {l : List α}
    (h : l.Nodup) (d : α) :
    (l.filter (fun x => decide (x = d))).length ≤ 1 := by
  induction l with
  | nil => simp
  | cons a l ih =>
    rw [List.filter_cons]
    by_cases hd : a = d
    · subst hd
      have hrest : l.filter (fun x => decide (x = a)) = [] := by
        rw [List.filter_eq_nil_iff]
        intro x hx
        simp only [decide_eq_true_eq]
        exact fun hh => (List.nodup_cons.mp h).1 (hh ▸ hx)
      simp [hrest]
    · rw [if_neg (by simpa using hd)]
      exact ih (List.nodup_cons.mp h).2

/-- C4 amended: within one level check (one negatives list against one ad
group's positives at one location), when the negatives carry distinct display
texts, each negative display yields at most one ConflictRecord; a record for
a negative exists iff that negative blocks at least one positive there; and
the record is exactly the negative's display, the location, and the blocked
positives' display texts comma-joined in encounter order (no dedup, no
sort).  (Run-wide per-(negative, location) uniqueness fails, see the
counterexample: campaign-level and account-level negatives are re-checked
for every ad group under the same location string.) -/
theorem c4_per_level_check_shape (negs pos : List NormalizedKeyword)
    (loc : List Char) (hnd : (negs.map (fun n => n.display)).Nodup) :
    (∀ d, ((checkLevelForConflicts negs pos loc).filter
        (fun r => decide (r.negDisplay = d))).length ≤ 1) ∧
    (∀ n ∈ negs,
      ((∃ p ∈ pos, negativeBlocksPositive_mcc n p = true) ↔
        ∃ r ∈ checkLevelForConflicts negs pos loc, r.negDisplay = n.display)) ∧
    (∀ n ∈ negs, ∀ r ∈ checkLevelForConflicts negs pos loc,
      r.negDisplay = n.display →
        r = ⟨n.display, loc,
          joinCommaSp ((pos.filter (fun p => negativeBlocksPositive_mcc n p)).map
            (fun p => p.display))⟩) := by
  refine ⟨?_, ?_, ?_⟩
  · intro d
    have hnodup : ((checkLevelForConflicts negs pos loc).map
        (fun r => r.negDisplay)).Nodup :=
      hnd.sublist (checkLevel_displays_sublist negs pos loc)
    have hlen : ((checkLevelForConflicts negs pos loc).filter
        (fun r => decide (r.negDisplay = d))).length =
        (((checkLevelForConflicts negs pos loc).map (fun r => r.negDisplay)).filter
          (fun x => decide (x = d))).length := by
      rw [List.filter_map, List.length_map]
      rfl
    rw [hlen]
    exact nodup_filter_eq_length_le_one hnodup d
  · intro n hn
    constructor
    · rintro ⟨p, hp, hb⟩
      refine ⟨⟨n.display, loc,
        joinCommaSp ((pos.filter (fun q => negativeBlocksPositive_mcc n q)).map
          (fun q => q.display))⟩, ?_, rfl⟩
      rw [checkLevel_mem]
      refine ⟨n, hn, ?_, rfl⟩
      intro hnil
      have : p ∈ pos.filter (fun q => negativeBlocksPositive_mcc n q) :=
        List.mem_filter.mpr ⟨hp, hb⟩
      rw [hnil] at this
      exact absurd this (List.not_mem_nil p)
    · rintro ⟨r, hr, hdisp⟩
      obtain ⟨m, hm, hne, rfl⟩ := (checkLevel_mem negs pos loc r).mp hr
      have hmn : m = n := List.inj_on_of_nodup_map hnd hm hn hdisp
      subst hmn
      obtain ⟨p, hp⟩ := List.exists_mem_of_ne_nil _ hne
      exact ⟨p, (List.mem_filter.mp hp).1, (List.mem_filter.mp hp).2⟩
  · intro n hn r hr hdisp
    obtain ⟨m, hm, hne, rfl⟩ := (checkLevel_mem negs pos loc r).mp hr
    have hmn : m = n := List.inj_on_of_nodup_map hnd hm hn hdisp
    subst hmn
    rfl

/-- Witness for C4 at a concrete level check: one broad negative against a
duplicated positive yields exactly one record whose blocked column joins
both (unduplicated) occurrences. -/
theorem c4_witness :
    (∃ r ∈ checkLevelForConflicts
        [⟨chars "shoes", chars "shoes", chars "BROAD"⟩]
        [⟨chars "shoes a", chars "shoes a", chars "BROAD"⟩,
         ⟨chars "shoes a", chars "shoes a", chars "BROAD"⟩]
        (chars "Campaign: c"),
      r.negDisplay = chars "shoes") :=
  ((c4_per_level_check_shape
      [⟨chars "shoes", chars "shoes", chars "BROAD"⟩]
      [⟨chars "shoes a", chars "shoes a", chars "BROAD"⟩,
       ⟨chars "shoes a", chars "shoes a", chars "BROAD"⟩]
      (chars "Campaign: c") (by decide)).2.1
    ⟨chars "shoes", chars "shoes", chars "BROAD"⟩ (by decide)).mp
    ⟨⟨chars "shoes a", chars "shoes a", chars "BROAD"⟩, by decide, by decide⟩

/-! ## C5 -/

/-- Counterexample to C5 as stated: the two `normalizeKeyword` variants
disagree on the keyword `a+b` (BROAD) — the MCC variant only strips a `+`
that starts a word and keeps `a+b`, while the single-account regex
`\+(\S+)` deletes the mid-word `+` and yields `ab`. -/
theorem c5_counterexample :
    ¬ (∀ text matchType : List Char,
        normalizeKeyword_mcc text matchType = normalizeKeyword_single text matchType) := by
  intro hclaim
  have h := hclaim (chars "a+b") (chars "BROAD")
  revert h
  decide

/-- Characters of the trimmed string come from the original string. -/
theorem mem_jsTrim {c : Char} {s : List Char} (h : c ∈ jsTrim s) : c ∈ s := by
  unfold jsTrim at h
  rw [List.mem_reverse] at h
  have h2 := List.dropWhile_subset (l := (s.dropWhile isWs).reverse) isWs h
  rw [List.mem_reverse] at h2
  exact List.dropWhile_subset isWs h2

/-- Characters of a JS substring come from the original string. -/
theorem mem_jsSubstring {c : Char} {s : List Char} {a b : Nat}
    (h : c ∈ jsSubstring s a b) : c ∈ s := by
  unfold jsSubstring at h
  exact List.take_subset _ _ (List.drop_subset _ _ h)

/-- Characters of `trimKeyword`'s result come from the original string. -/
theorem mem_trimKeyword {c : Char} {s opn clo : List Char}
    (h : c ∈ trimKeyword s opn clo) : c ∈ s := by
  unfold trimKeyword at h
  split at h
  · exact mem_jsSubstring (mem_jsTrim h)
  · exact h

/-- Characters of a joined field list come from one of its fields. -/
theorem mem_joinSp {c : Char} {w : List Char} :
    ∀ {l : List (List Char)}, w ∈ l → c ∈ w → c ∈ joinSp l := by
  intro l
  induction l with
  | nil => intro hw; simp at hw
  | cons v vs ih =>
    intro hw hc
    match vs with
    | [] =>
      rw [List.mem_singleton] at hw
      subst hw
      exact hc
    | v2 :: vs2 =>
      show c ∈ v ++ ' ' :: joinSp (v2 :: vs2)
      rcases List.mem_cons.mp hw with rfl | hw2
      · exact List.mem_append_left _ hc
      · exact List.mem_append_right _ (List.mem_cons_of_mem _ (ih hw2 hc))

/-- Re-joining the single-space fields reproduces the string. -/
theorem joinSp_splitSp (s : List Char) : joinSp (splitSp s) = s := by
  induction s with
  | nil => rfl
  | cons c rest ih =>
    rw [splitSp]
    by_cases hc : c = ' '
    · rw [if_pos hc]
      obtain ⟨w, ws, hws⟩ := List.exists_cons_of_ne_nil (splitSp_ne_nil rest)
      rw [hws]
      show [] ++ ' ' :: joinSp (w :: ws) = c :: rest
      rw [hws] at ih
      rw [List.nil_append, ih, hc]
    · rw [if_neg hc]
      obtain ⟨w, ws, hws⟩ := List.exists_cons_of_ne_nil (splitSp_ne_nil rest)
      rw [hws]
      rw [hws] at ih
      match ws with
      | [] =>
        show c :: w = c :: rest
        rw [show joinSp [w] = w from rfl] at ih
        rw [ih]
      | w2 :: ws2 =>
        show (c :: w) ++ ' ' :: joinSp (w2 :: ws2) = c :: rest
        rw [show joinSp (w :: w2 :: ws2) = w ++ ' ' :: joinSp (w2 :: ws2) from rfl] at ih
        rw [List.cons_append, ih]

/-- Characters of a field come from the split string. -/
theorem mem_of_mem_splitSp {c : Char} {w : List Char} {s : List Char}
    (hw : w ∈ splitSp s) (hc : c ∈ w) : c ∈ s := by
  rw [← joinSp_splitSp s]
  exact mem_joinSp hw hc

/-- A word without a `+` is unchanged by the per-word modifier strip. -/
theorem stripPlusWord_no_plus (w : List Char) (h : '+' ∉ w) :
    stripPlusWord w = w := by
  match w with
  | [] => rfl
  | c :: t =>
    have hc : c ≠ '+' := fun hh => h (hh ▸ List.mem_cons_self c t)
    rw [stripPlusWord]
    all_goals intro t2 heq
    all_goals exact hc (List.cons_eq_cons.mp heq).1

/-- A string without a `+` is unchanged by the MCC modifier strip. -/
theorem stripPlusWords_no_plus (s : List Char) (h : '+' ∉ s) :
    stripPlusWords s = s := by
  unfold stripPlusWords
  have hmap : (splitSp s).map stripPlusWord = (splitSp s).map id := by
    apply List.map_congr_left
    intro w hw
    exact stripPlusWord_no_plus w (fun hc => h (mem_of_mem_splitSp hw hc))
  rw [hmap, List.map_id, joinSp_splitSp]

/-- A string without a `+` is unchanged by the regex modifier strip, at any
fuel. -/
theorem stripPlusRegexAux_no_plus (fuel : Nat) (s : List Char) (h : '+' ∉ s) :
    stripPlusRegexAux fuel s = s := by
  induction fuel generalizing s with
  | zero => rfl
  | succ fuel ih =>
    match s with
    | [] => rfl
    | c :: rest =>
      have hc : c ≠ '+' := fun hh => h (hh ▸ List.mem_cons_self c rest)
      have hrest : '+' ∉ rest := fun hh => h (List.mem_cons_of_mem c hh)
      rw [stripPlusRegexAux, ih rest hrest]
      all_goals intros
      all_goals exact hc (by assumption)

/-- A string without a `+` is unchanged by the regex modifier strip. -/
theorem stripPlusRegex_no_plus (s : List Char) (h : '+' ∉ s) :
    stripPlusRegex s = s :=
  stripPlusRegexAux_no_plus s.length s h

/-- On a `+`-free intermediate text, the tails of the two cleaning pipelines
coincide. -/
theorem cleaned_tail_agree (r : List Char) (h : '+' ∉ r) :
    lowerStr (jsTrim (wsCollapse (stripPlusWords r))) =
      lowerStr (jsTrim (wsCollapse (stripPlusRegex r))) := by
  rw [stripPlusWords_no_plus r h, stripPlusRegex_no_plus r h]

/-- For a canonical match-type spelling and a `+`-free text, the two
variants compute the same cleaned raw text (their wrapper-strip branch
selections coincide, and both modifier strips are the identity). -/
theorem cleanedRaw_agree (text matchType : List Char) (hplus : '+' ∉ text)
    (hmt : matchType = chars "EXACT" ∨ matchType = chars "PHRASE" ∨
      matchType = chars "BROAD" ∨ matchType = chars "EXACT_MATCH" ∨
      matchType = chars "PHRASE_MATCH" ∨ matchType = chars "BROAD_MATCH") :
    cleanedRaw_mcc text matchType = cleanedRaw_single text matchType := by
  have hplus0 : '+' ∉ jsTrim text := fun hh => hplus (mem_jsTrim hh)
  have hplusQ : '+' ∉ trimKeyword (jsTrim text) (chars "\"") (chars "\"") :=
    fun hh => hplus0 (mem_trimKeyword hh)
  have hplusB : '+' ∉ trimKeyword (jsTrim text) (chars "[") (chars "]") :=
    fun hh => hplus0 (mem_trimKeyword hh)
  rcases hmt with rfl | rfl | rfl | rfl | rfl | rfl <;>
    simp only [cleanedRaw_mcc, cleanedRaw_single] <;>
    first
      | (rw [if_neg (by decide), if_pos (by decide), if_neg (by decide),
          if_pos (by decide)]
         exact cleaned_tail_agree _ hplusB)
      | (rw [if_pos (by decide), if_pos (by decide)]
         exact cleaned_tail_agree _ hplusQ)
      | (rw [if_neg (by decide), if_neg (by decide), if_neg (by decide),
          if_neg (by decide)]
         exact cleaned_tail_agree _ hplus0)

/-- Same cleaned raw text implies the two `normalizeKeyword` variants agree
(their remaining structure is identical up to the order of the final
empty-raw check, which does not affect the returned value). -/
theorem normalize_eq_of_cleaned_eq (text matchType : List Char)
    (h : cleanedRaw_mcc text matchType = cleanedRaw_single text matchType) :
    normalizeKeyword_mcc text matchType = normalizeKeyword_single text matchType := by
  unfold normalizeKeyword_mcc normalizeKeyword_single
  rw [h]

/-- The two `isSubsequence` variants agree on non-empty inputs. -/
theorem isSubsequence_agree (k1 k2 : List Char) (h1 : k1 ≠ []) (h2 : k2 ≠ []) :
    isSubsequence_mcc k1 k2 = isSubsequence_single k1 k2 := by
  unfold isSubsequence_mcc isSubsequence_single
  rw [if_neg (by simpa using h1), if_neg (by simpa using h2),
    if_neg (by simp [h1, h2])]

/-- The two `hasAllTokens` variants agree on space-normal inputs. -/
theorem hasAllTokens_agree (k1 k2 : List Char)
    (h1 : spaceNormal k1 = true) (h2 : spaceNormal k2 = true) :
    hasAllTokens_mcc k1 k2 = hasAllTokens_single k1 k2 := by
  have hm := hasAllTokens_mcc_iff k1 k2 (spaceNormal_ne_nil _ h2)
  have hs := hasAllTokens_single_iff k1 k2 h1 h2
  cases hvm : hasAllTokens_mcc k1 k2 <;> cases hvs : hasAllTokens_single k1 k2
  · rfl
  · rw [hvm] at hm
    rw [hvs] at hs
    exact absurd (hm.mpr (hs.mp rfl)) (by simp)
  · rw [hvm] at hm
    rw [hvs] at hs
    exact absurd (hs.mpr (hm.mp rfl)) (by simp)
  · rfl

/-- C5 amended: for every pair of normalized keywords (space-normal raw
texts) the two `negativeBlocksPositive` variants return the same boolean;
and the two `normalizeKeyword` variants return equal results on every input
whose match type is one of the canonical spellings (`EXACT`, `PHRASE`,
`BROAD`, optionally with `_MATCH` suffix) and whose text contains no `+`
character.  (On texts with a mid-word `+`, or non-canonical match types with
wrapper characters, the variants genuinely diverge — see the
counterexample.) -/
theorem c5_variants_agree (n p : NormalizedKeyword)
    (hn : spaceNormal n.raw = true) (hp : spaceNormal p.raw = true)
    (text matchType : List Char) (hplus : '+' ∉ text)
    (hmt : matchType = chars "EXACT" ∨ matchType = chars "PHRASE" ∨
      matchType = chars "BROAD" ∨ matchType = chars "EXACT_MATCH" ∨
      matchType = chars "PHRASE_MATCH" ∨ matchType = chars "BROAD_MATCH") :
    negativeBlocksPositive_mcc n p = negativeBlocksPositive_single n p ∧
    normalizeKeyword_mcc text matchType = normalizeKeyword_single text matchType := by
  constructor
  · unfold negativeBlocksPositive_mcc negativeBlocksPositive_single
    split_ifs <;>
      first
        | rfl
        | exact isSubsequence_agree n.raw p.raw (spaceNormal_ne_nil _ hn)
            (spaceNormal_ne_nil _ hp)
        | exact hasAllTokens_agree n.raw p.raw hn hp
  · exact normalize_eq_of_cleaned_eq text matchType
      (cleanedRaw_agree text matchType hplus hmt)

/-- Witness for C5 at concrete inputs: broad keywords `red shoes` and
`shoes red cheap`, and the raw input (`Red Shoes`, `BROAD`). -/
theorem c5_witness :
    negativeBlocksPositive_mcc
        ⟨chars "red shoes", chars "red shoes", chars "BROAD"⟩
        ⟨chars "shoes red cheap", chars "shoes red cheap", chars "BROAD"⟩ =
      negativeBlocksPositive_single
        ⟨chars "red shoes", chars "red shoes", chars "BROAD"⟩
        ⟨chars "shoes red cheap", chars "shoes red cheap", chars "BROAD"⟩ ∧
    normalizeKeyword_mcc (chars "Red Shoes") (chars "BROAD") =
      normalizeKeyword_single (chars "Red Shoes") (chars "BROAD") :=
  c5_variants_agree
    ⟨chars "red shoes", chars "red shoes", chars "BROAD"⟩
    ⟨chars "shoes red cheap", chars "shoes red cheap", chars "BROAD"⟩
    (by decide) (by decide) (chars "Red Shoes") (chars "BROAD") (by decide)
    (Or.inr (Or.inr (Or.inl rfl)))

/-! ## C10 -/

/-- Counterexample to C10 as stated: `normalizeKeyword('++a', 'BROAD')`
succeeds with rawText `+a` (only one word-leading `+` is stripped), but
re-normalizing its displayText `+a` with the canonical type strips the
remaining `+` and yields rawText `a` — the round trip changes the raw
text. -/
theorem c10_counterexample :
    ¬ (∀ (t mt : List Char) (k : NormalizedKeyword),
        normalizeKeyword_mcc t mt = some k →
          ∃ k2, normalizeKeyword_mcc k.display k.matchType = some k2 ∧
            k2.raw = k.raw ∧ k2.display = k.display) := by
  intro hclaim
  obtain ⟨k2, hk2, hraw, -⟩ := hclaim (chars "++a") (chars "BROAD")
    ⟨chars "+a", chars "+a", chars "BROAD"⟩ (by decide)
  rw [show normalizeKeyword_mcc (chars "+a") (chars "BROAD") =
    some ⟨chars "a", chars "a", chars "BROAD"⟩ from by decide] at hk2
  rw [← Option.some_inj.mp hk2] at hraw
  exact absurd hraw (by decide)

/-- `Char.ofNat` at a valid code point keeps the numeric value. -/
theorem toNat_ofNat_valid (n : Nat) (h : n.isValidChar) :
    (Char.ofNat n).toNat = n := by
  rw [Char.ofNat, dif_pos h]
  rfl

/-- Characters at or above code point 65 are not JS whitespace. -/
theorem isWs_eq_false_of_ge (c : Char) (h : 65 ≤ c.toNat) : isWs c = false := by
  have kc : ∀ d : Char, d.toNat < 65 → (c = d) = False := by
    intro d hd
    simp only [eq_iff_iff, iff_false]
    intro hcd
    rw [hcd] at h
    omega
  rw [isWs]
  simp [kc ' ' (by decide), kc '\t' (by decide), kc '\n' (by decide),
    kc '\r' (by decide), kc '\x0b' (by decide), kc '\x0c' (by decide)]

/-- Lowercasing an ASCII capital letter adds 32 to its code point. -/
theorem lowerChar_toNat_of_upper (c : Char)
    (h : 65 ≤ c.toNat ∧ c.toNat ≤ 90) : (lowerChar c).toNat = c.toNat + 32 := by
  rw [lowerChar, Char.toLower, if_pos ⟨h.1, h.2⟩]
  exact toNat_ofNat_valid _ (Or.inl (by omega))

/-- Lowercasing is the identity outside the ASCII capital range. -/
theorem lowerChar_eq_self_of_not_upper (c : Char)
    (h : ¬(65 ≤ c.toNat ∧ c.toNat ≤ 90)) : lowerChar c = c := by
  rw [lowerChar, Char.toLower, if_neg h]

/-- Lowercasing does not change JS whitespace-status. -/
theorem isWs_lowerChar (c : Char) : isWs (lowerChar c) = isWs c := by
  by_cases h : 65 ≤ c.toNat ∧ c.toNat ≤ 90
  · rw [isWs_eq_false_of_ge c h.1, isWs_eq_false_of_ge (lowerChar c)
      (by rw [lowerChar_toNat_of_upper c h]; omega)]
  · rw [lowerChar_eq_self_of_not_upper c h]

/-- Lowercasing is idempotent. -/
theorem lowerChar_idem (c : Char) : lowerChar (lowerChar c) = lowerChar c := by
  by_cases h : 65 ≤ c.toNat ∧ c.toNat ≤ 90
  · exact lowerChar_eq_self_of_not_upper _
      (by rw [lowerChar_toNat_of_upper c h]; omega)
  · rw [lowerChar_eq_self_of_not_upper c h, lowerChar_eq_self_of_not_upper c h]

/-- Lowercasing a whole string is idempotent. -/
theorem lowerStr_idem (s : List Char) : lowerStr (lowerStr s) = lowerStr s := by
  unfold lowerStr
  rw [List.map_map]
  exact List.map_congr_left (fun c _ => lowerChar_idem c)

/-- Trimming commutes with lowercasing. -/
theorem jsTrim_lowerStr (s : List Char) :
    jsTrim (lowerStr s) = lowerStr (jsTrim s) := by
  have hfun : (isWs ∘ lowerChar) = isWs := funext isWs_lowerChar
  unfold jsTrim lowerStr
  rw [List.dropWhile_map, hfun, ← List.map_reverse, List.dropWhile_map, hfun,
    ← List.map_reverse]

/-- Whitespace collapsing commutes with lowercasing. -/
theorem wsCollapseAux_lowerStr (s : List Char) :
    ∀ b, wsCollapseAux (lowerStr s) b = lowerStr (wsCollapseAux s b) := by
  induction s with
  | nil => intro b; rfl
  | cons c cs ih =>
    intro b
    show wsCollapseAux (lowerChar c :: lowerStr cs) b = _
    rw [wsCollapseAux, wsCollapseAux, isWs_lowerChar]
    by_cases hws : isWs c = true
    · rw [if_pos hws, if_pos hws]
      by_cases hb : b = true
      · rw [if_pos hb, if_pos hb, ih]
      · rw [if_neg hb, if_neg hb, ih]
        show _ = lowerStr (' ' :: wsCollapseAux cs true)
        rw [show lowerStr (' ' :: wsCollapseAux cs true) =
          lowerChar ' ' :: lowerStr (wsCollapseAux cs true) from rfl]
        rw [show lowerChar ' ' = ' ' from by decide]
    · rw [if_neg hws, if_neg hws, ih]
      rfl

/-- Whitespace collapsing commutes with lowercasing (whole pipeline form). -/
theorem wsCollapse_lowerStr (s : List Char) :
    wsCollapse (lowerStr s) = lowerStr (wsCollapse s) :=
  wsCollapseAux_lowerStr s false

/-- In-run collapsing emits a non-whitespace first character. -/
theorem wsCollapseAux_true_head (s : List Char) :
    ∀ d rest, wsCollapseAux s true = d :: rest → isWs d = false := by
  induction s with
  | nil => intro d rest h; exact absurd h (by simp [wsCollapseAux])
  | cons c cs ih =>
    intro d rest h
    rw [wsCollapseAux] at h
    by_cases hws : isWs c = true
    · rw [if_pos hws, if_pos rfl] at h
      exact ih d rest h
    · rw [if_neg hws] at h
      rw [← (List.cons_eq_cons.mp h).1]
      simpa using hws
/-- The canonical whitespace shape `wsCollapse` establishes: every
whitespace character is a plain space, and no two adjacent characters are
both whitespace. -/
def wsCanonical (s : List Char) : Prop :=
  (∀ c ∈ s, isWs c = true → c = ' ') ∧
  List.Chain' (fun a b => ¬(isWs a = true ∧ isWs b = true)) s

/-- Collapsed strings are whitespace-canonical. -/
theorem wsCanonical_wsCollapseAux (s : List Char) :
    ∀ b, wsCanonical (wsCollapseAux s b) := by
  induction s with
  | nil => intro b; exact ⟨by simp [wsCollapseAux], by simp [wsCollapseAux]⟩
  | cons c cs ih =>
    intro b
    rw [wsCollapseAux]
    by_cases hws : isWs c = true
    · rw [if_pos hws]
      by_cases hb : b = true
      · rw [if_pos hb]
        exact ih true
      · rw [if_neg hb]
        refine ⟨?_, ?_⟩
        · intro d hd hwd
          rcases List.mem_cons.mp hd with rfl | hd2
          · rfl
          · exact (ih true).1 d hd2 hwd
        · refine List.Chain'.cons' (ih true).2 ?_
          intro y hy
          match hh : wsCollapseAux cs true with
          | [] => rw [hh] at hy; simp at hy
          | d :: rest =>
            rw [hh] at hy
            simp only [List.head?_cons, Option.mem_def, Option.some_inj] at hy
            subst hy
            intro hand
            rw [wsCollapseAux_true_head cs d rest hh] at hand
            exact absurd hand.2 (by simp)
    · rw [if_neg hws]
      refine ⟨?_, ?_⟩
      · intro d hd hwd
        rcases List.mem_cons.mp hd with rfl | hd2
        · exact absurd hwd (by simpa using hws)
        · exact (ih false).1 d hd2 hwd
      · refine List.Chain'.cons' (ih false).2 ?_
        intro y hy hand
        exact absurd hand.1 (by simpa using hws)

/-- Collapsed strings are whitespace-canonical (pipeline form). -/
theorem wsCanonical_wsCollapse (s : List Char) : wsCanonical (wsCollapse s) :=
  wsCanonical_wsCollapseAux s false

/-- Collapsing is the identity on whitespace-canonical strings. -/
theorem wsCollapse_eq_self (s : List Char) (h : wsCanonical s) :
    wsCollapse s = s := by
  suffices hall : ∀ s, wsCanonical s →
      (wsCollapseAux s false = s ∧
        (∀ d rest, s = d :: rest → isWs d = false → wsCollapseAux s true = s)) by
    exact (hall s h).1
  intro s
  induction s with
  | nil => intro _; exact ⟨rfl, by intro d rest h2; simp at h2⟩
  | cons c cs ih =>
    intro hcan
    have hcs : wsCanonical cs :=
      ⟨fun d hd => hcan.1 d (List.mem_cons_of_mem c hd), hcan.2.tail⟩
    constructor
    · rw [wsCollapseAux]
      by_cases hws : isWs c = true
      · rw [if_pos hws, if_neg (by simp)]
        have hc : c = ' ' := hcan.1 c (List.mem_cons_self c cs) hws
        match cs with
        | [] => rw [hc]; rfl
        | d :: rest =>
          have hreld := List.Chain'.rel_head hcan.2
          have hwd : isWs d = false := by
            by_cases hx : isWs d = true
            · exact absurd ⟨hws, hx⟩ hreld
            · simpa using hx
          rw [(ih hcs).2 d rest rfl hwd, hc]
      · rw [if_neg hws, (ih hcs).1]
    · intro d rest heq hwd
      have hcd : c = d := (List.cons_eq_cons.mp heq).1
      rw [wsCollapseAux, if_neg (by rw [hcd]; simp [hwd]), (ih hcs).1]

/-- Decomposition of a string around its trimmed core. -/
theorem jsTrim_decomp (s : List Char) :
    ∃ t1 t2, s = t1 ++ (jsTrim s ++ t2) ∧
      s.dropWhile isWs = jsTrim s ++ t2 := by
  obtain ⟨t1, ht1⟩ := List.dropWhile_suffix (l := s) isWs
  obtain ⟨t2r, ht2⟩ := List.dropWhile_suffix (l := (s.dropWhile isWs).reverse) isWs
  have hu : s.dropWhile isWs = jsTrim s ++ t2r.reverse := by
    have h2 := congrArg List.reverse ht2
    rw [List.reverse_append, List.reverse_reverse] at h2
    exact h2.symm
  refine ⟨t1, t2r.reverse, ?_, hu⟩
  rw [← hu]
  exact ht1.symm

/-- Trimming is idempotent. -/
theorem jsTrim_idempotent (s : List Char) : jsTrim (jsTrim s) = jsTrim s := by
  obtain ⟨t1, t2, hs, hu⟩ := jsTrim_decomp s
  have hstepA : (jsTrim s).dropWhile isWs = jsTrim s := by
    match hv : jsTrim s with
    | [] => rfl
    | c :: v2 =>
      have hthis : s.dropWhile isWs = c :: (v2 ++ t2) := by rw [hu, hv]; simp
      have h0 := List.head?_dropWhile_not isWs s
      rw [hthis] at h0
      simp only [List.head?_cons] at h0
      exact List.dropWhile_cons_of_neg (by simp [h0])
  have hstepB : (jsTrim s).reverse.dropWhile isWs = (jsTrim s).reverse := by
    have hrev : (jsTrim s).reverse = (s.dropWhile isWs).reverse.dropWhile isWs := by
      show ((s.dropWhile isWs).reverse.dropWhile isWs).reverse.reverse = _
      rw [List.reverse_reverse]
    rw [hrev, List.dropWhile_idempotent]
  show (((jsTrim s).dropWhile isWs).reverse.dropWhile isWs).reverse = jsTrim s
  rw [hstepA, hstepB, List.reverse_reverse]

/-- Trimming preserves whitespace-canonicity. -/
theorem wsCanonical_jsTrim (s : List Char) (h : wsCanonical s) :
    wsCanonical (jsTrim s) := by
  obtain ⟨t1, t2, hs, -⟩ := jsTrim_decomp s
  refine ⟨fun c hc => h.1 c (mem_jsTrim hc), ?_⟩
  exact List.Chain'.infix h.2 ⟨t1, t2, by rw [List.append_assoc]; exact hs.symm⟩

/-- The fixed points of the cleaning pipeline's tail: the result is trimmed,
collapsed and lowercase. -/
theorem pipelineTail_fixeds (z : List Char) :
    jsTrim (lowerStr (jsTrim (wsCollapse z))) = lowerStr (jsTrim (wsCollapse z)) ∧
    wsCollapse (lowerStr (jsTrim (wsCollapse z))) = lowerStr (jsTrim (wsCollapse z)) ∧
    lowerStr (lowerStr (jsTrim (wsCollapse z))) = lowerStr (jsTrim (wsCollapse z)) := by
  have hyt : jsTrim (jsTrim (wsCollapse z)) = jsTrim (wsCollapse z) :=
    jsTrim_idempotent _
  have hyw : wsCollapse (jsTrim (wsCollapse z)) = jsTrim (wsCollapse z) :=
    wsCollapse_eq_self _ (wsCanonical_jsTrim _ (wsCanonical_wsCollapse z))
  exact ⟨by rw [jsTrim_lowerStr, hyt], by rw [wsCollapse_lowerStr, hyw],
    lowerStr_idem _⟩

/-- The cleaned raw text of the MCC normalizer is trimmed, collapsed and
lowercase. -/
theorem cleanedRaw_mcc_fixeds (text mt : List Char) :
    jsTrim (cleanedRaw_mcc text mt) = cleanedRaw_mcc text mt ∧
    wsCollapse (cleanedRaw_mcc text mt) = cleanedRaw_mcc text mt ∧
    lowerStr (cleanedRaw_mcc text mt) = cleanedRaw_mcc text mt := by
  unfold cleanedRaw_mcc
  exact pipelineTail_fixeds _

/-- Explicit if-chain form of the MCC `normalizeKeyword`. -/
theorem normalizeKeyword_mcc_eq (t mt : List Char) :
    normalizeKeyword_mcc t mt =
      if (t.isEmpty || (jsTrim t).isEmpty) = true then none
      else if mt.isEmpty = true then none
      else if (cleanedRaw_mcc t mt).isEmpty = true then none
      else some ⟨wrapDisplay (cleanedRaw_mcc t mt) (normMatchType mt),
        cleanedRaw_mcc t mt, normMatchType mt⟩ := rfl

/-- A successful MCC normalization returns exactly the cleaned raw text, the
canonical match type, and the re-wrapped display. -/
theorem normalizeKeyword_mcc_some_shape (t mt : List Char) (k : NormalizedKeyword)
    (hk : normalizeKeyword_mcc t mt = some k) :
    k = ⟨wrapDisplay (cleanedRaw_mcc t mt) (normMatchType mt),
      cleanedRaw_mcc t mt, normMatchType mt⟩ ∧
    cleanedRaw_mcc t mt ≠ [] := by
  rw [normalizeKeyword_mcc_eq] at hk
  by_cases h1 : (t.isEmpty || (jsTrim t).isEmpty) = true
  · rw [if_pos h1] at hk
    exact absurd hk (by simp)
  · rw [if_neg h1] at hk
    by_cases h2 : mt.isEmpty = true
    · rw [if_pos h2] at hk
      exact absurd hk (by simp)
    · rw [if_neg h2] at hk
      by_cases h3 : (cleanedRaw_mcc t mt).isEmpty = true
      · rw [if_pos h3] at hk
        exact absurd hk (by simp)
      · rw [if_neg h3] at hk
        exact ⟨(Option.some_inj.mp hk).symm, by simpa using h3⟩

/-- The canonical match type is always one of the three values. -/
theorem normMatchType_cases (mt : List Char) :
    normMatchType mt = chars "EXACT" ∨ normMatchType mt = chars "PHRASE" ∨
      normMatchType mt = chars "BROAD" := by
  simp only [normMatchType]
  split
  · rename_i h
    simp at h
    tauto
  · right; right; rfl

/-- Trimming fixes a string wrapped in non-whitespace characters. -/
theorem jsTrim_wrap (a b : Char) (xs : List Char)
    (ha : isWs a = false) (hb : isWs b = false) :
    jsTrim (a :: (xs ++ [b])) = a :: (xs ++ [b]) := by
  show (((a :: (xs ++ [b])).dropWhile isWs).reverse.dropWhile isWs).reverse = _
  rw [List.dropWhile_cons_of_neg (by simp [ha])]
  have hrev : (a :: (xs ++ [b])).reverse = b :: (xs.reverse ++ [a]) := by simp
  rw [hrev, List.dropWhile_cons_of_neg (by simp [hb]), ← hrev, List.reverse_reverse]

/-- Removing a single-character wrapper pair recovers the wrapped (trimmed)
text. -/
theorem trimKeyword_wrap (a b : Char) (xs : List Char) (h : jsTrim xs = xs) :
    trimKeyword (a :: (xs ++ [b])) [a] [b] = xs := by
  unfold trimKeyword
  rw [if_pos ?hcond]
  case hcond =>
    have hrev : (a :: (xs ++ [b])).reverse = b :: (xs.reverse ++ [a]) := by simp
    simp [beginsWith, finishesWith, hrev]
  have hlen : (a :: (xs ++ [b])).length = xs.length + 2 := by simp
  have hsub : jsSubstring (a :: (xs ++ [b])) 1 (xs.length + 1) = xs := by
    simp only [jsSubstring, hlen]
    rw [show min 1 (xs.length + 2) = 1 from by omega,
      show min (xs.length + 1) (xs.length + 2) = xs.length + 1 from by omega,
      show max 1 (xs.length + 1) = xs.length + 1 from by omega,
      show min 1 (xs.length + 1) = 1 from by omega]
    rw [List.take_succ_cons, List.take_left]
    simp
  rw [show (a :: (xs ++ [b])).length - List.length [b] = xs.length + 1 from by
    simp, show List.length [a] = 1 from rfl, hsub, h]

/-- Re-normalizing a canonical BROAD raw text is the identity. -/
theorem normalize_roundtrip_broad (r : List Char) (hne : r ≠ [])
    (hrt : jsTrim r = r) (hrw : wsCollapse r = r) (hrl : lowerStr r = r)
    (hplus : '+' ∉ r) :
    normalizeKeyword_mcc r (chars "BROAD") = some ⟨r, r, chars "BROAD"⟩ := by
  have hcr : cleanedRaw_mcc r (chars "BROAD") = r := by
    simp only [cleanedRaw_mcc]
    rw [hrt, if_neg (by decide), if_neg (by decide),
      stripPlusWords_no_plus r hplus, hrw, hrt, hrl]
  rw [normalizeKeyword_mcc_eq]
  rw [if_neg (by simp [hrt, hne]), if_neg (by decide),
    if_neg (by simp [hcr, hne]), hcr,
    show normMatchType (chars "BROAD") = chars "BROAD" from by decide,
    show wrapDisplay r (chars "BROAD") = r from by
      unfold wrapDisplay
      rw [if_neg (by decide), if_neg (by decide)]]

/-- Re-normalizing the display of a canonical PHRASE keyword recovers the
same raw text and display. -/
theorem normalize_roundtrip_phrase (r : List Char) (hne : r ≠ [])
    (hrt : jsTrim r = r) (hrw : wsCollapse r = r) (hrl : lowerStr r = r)
    (hplus : '+' ∉ r) :
    normalizeKeyword_mcc ('"' :: (r ++ ['"'])) (chars "PHRASE") =
      some ⟨'"' :: (r ++ ['"']), r, chars "PHRASE"⟩ := by
  have htrim : jsTrim ('"' :: (r ++ ['"'])) = '"' :: (r ++ ['"']) :=
    jsTrim_wrap '"' '"' r (by decide) (by decide)
  have hcr : cleanedRaw_mcc ('"' :: (r ++ ['"'])) (chars "PHRASE") = r := by
    simp only [cleanedRaw_mcc]
    rw [htrim, if_pos (by decide), show chars "\"" = ['"'] from rfl,
      trimKeyword_wrap '"' '"' r hrt,
      stripPlusWords_no_plus r hplus, hrw, hrt, hrl]
  rw [normalizeKeyword_mcc_eq]
  rw [if_neg (by simp [htrim]), if_neg (by decide),
    if_neg (by simp [hcr, hne]), hcr,
    show normMatchType (chars "PHRASE") = chars "PHRASE" from by decide,
    show wrapDisplay r (chars "PHRASE") = '"' :: (r ++ ['"']) from by
      unfold wrapDisplay
      rw [if_pos rfl]
      simp]

/-- Re-normalizing the display of a canonical EXACT keyword recovers the
same raw text and display. -/
theorem normalize_roundtrip_exact (r : List Char) (hne : r ≠ [])
    (hrt : jsTrim r = r) (hrw : wsCollapse r = r) (hrl : lowerStr r = r)
    (hplus : '+' ∉ r) :
    normalizeKeyword_mcc ('[' :: (r ++ [']'])) (chars "EXACT") =
      some ⟨'[' :: (r ++ [']']), r, chars "EXACT"⟩ := by
  have htrim : jsTrim ('[' :: (r ++ [']'])) = '[' :: (r ++ [']']) :=
    jsTrim_wrap '[' ']' r (by decide) (by decide)
  have hcr : cleanedRaw_mcc ('[' :: (r ++ [']'])) (chars "EXACT") = r := by
    simp only [cleanedRaw_mcc]
    rw [htrim, if_neg (by decide), if_pos (by decide),
      show chars "[" = ['['] from rfl, show chars "]" = [']'] from rfl,
      trimKeyword_wrap '[' ']' r hrt,
      stripPlusWords_no_plus r hplus, hrw, hrt, hrl]
  rw [normalizeKeyword_mcc_eq]
  rw [if_neg (by simp [htrim]), if_neg (by decide),
    if_neg (by simp [hcr, hne]), hcr,
    show normMatchType (chars "EXACT") = chars "EXACT" from by decide,
    show wrapDisplay r (chars "EXACT") = '[' :: (r ++ [']']) from by
      unfold wrapDisplay
      rw [if_neg (by decide), if_pos rfl]
      simp]

/-- C10 amended: the MCC normalizer round-trips on its own output whenever
the produced rawText contains no `+` character: re-normalizing the
displayText with the canonical matchType returns the very same normalized
keyword (same rawText, same displayText, same matchType).  When the rawText
retains a `+` (possible, since only one word-leading `+` is stripped per
word), a second application can strip further — see the counterexample. -/
theorem c10_normalize_idempotent_on_plus_free (t mt : List Char)
    (k : NormalizedKeyword) (hk : normalizeKeyword_mcc t mt = some k)
    (hplus : '+' ∉ k.raw) :
    normalizeKeyword_mcc k.display k.matchType = some k := by
  obtain ⟨hkeq, hne⟩ := normalizeKeyword_mcc_some_shape t mt k hk
  obtain ⟨hrt, hrw, hrl⟩ := cleanedRaw_mcc_fixeds t mt
  subst hkeq
  have hplus2 : '+' ∉ cleanedRaw_mcc t mt := hplus
  rcases normMatchType_cases mt with hM | hM | hM <;> rw [hM]
  · rw [show wrapDisplay (cleanedRaw_mcc t mt) (chars "EXACT") =
      '[' :: (cleanedRaw_mcc t mt ++ [']']) from by
        unfold wrapDisplay
        rw [if_neg (by decide), if_pos rfl]
        simp]
    exact normalize_roundtrip_exact _ hne hrt hrw hrl hplus2
  · rw [show wrapDisplay (cleanedRaw_mcc t mt) (chars "PHRASE") =
      '"' :: (cleanedRaw_mcc t mt ++ ['"']) from by
        unfold wrapDisplay
        rw [if_pos rfl]
        simp]
    exact normalize_roundtrip_phrase _ hne hrt hrw hrl hplus2
  · rw [show wrapDisplay (cleanedRaw_mcc t mt) (chars "BROAD") =
      cleanedRaw_mcc t mt from by
        unfold wrapDisplay
        rw [if_neg (by decide), if_neg (by decide)]]
    exact normalize_roundtrip_broad _ hne hrt hrw hrl hplus2

/-- Witness for C10 at a concrete input: `Shoes` (BROAD) normalizes to
`shoes`, and re-normalizing its display round-trips. -/
theorem c10_witness :
    normalizeKeyword_mcc (chars "shoes") (chars "BROAD") =
      some ⟨chars "shoes", chars "shoes", chars "BROAD"⟩ :=
  c10_normalize_idempotent_on_plus_free (chars "Shoes") (chars "BROAD")
    ⟨chars "shoes", chars "shoes", chars "BROAD"⟩ (by decide) (by decide)
